import Mathlib

/-!
# Verification of the proposal-comparison core (`compareProposalsForRfp`)

Shallow embedding of `src/routes/index.ts` (the `compareProposalsForRfp`
function and the record types it operates on).  JavaScript numbers are
modelled as rationals (`ℚ`); nullable fields as `Option`; the JS truthiness
test on `rfp.currency` is modelled explicitly (`null` and `""` are falsy).
`Array.prototype.sort` with comparator `(a, b) => b.total - a.total` is a
stable descending sort by `totalScore`; it is modelled by a stable insertion
sort (`sortDesc`) whose stability and sortedness are proved below.
-/

/-- Mirror of the Prisma `Proposal` row (fields used by the comparator,
plus the identifier).  `totalPrice`, `deliveryDays`, `warrantyMonths` and
`currency` are nullable in the schema. -/
structure Proposal where
  id : String
  currency : Option String
  totalPrice : Option ℚ
  deliveryDays : Option ℚ
  warrantyMonths : Option ℚ
deriving DecidableEq

/-- Mirror of the Prisma `Rfp` row (fields read by the comparator). -/
structure Rfp where
  id : String
  title : String
  currency : Option String
deriving DecidableEq

/-- Mirror of `ProposalScoreBreakdown` in `src/routes/index.ts`. -/
structure ProposalScoreBreakdown where
  priceScore : ℚ
  deliveryScore : ℚ
  warrantyScore : ℚ
  totalScore : ℚ
deriving DecidableEq

/-- Mirror of `ProposalWithScores`: the input proposal spread together with
its score breakdown. -/
structure ProposalWithScores where
  proposal : Proposal
  scores : ProposalScoreBreakdown
deriving DecidableEq

/-- The `criteriaWeights` triple of the result. -/
structure CriteriaWeights where
  price : ℚ
  delivery : ℚ
  warranty : ℚ
deriving DecidableEq

/-- Mirror of `RfpComparisonResult`. -/
structure RfpComparisonResult where
  rfpId : String
  rfpTitle : String
  currency : Option String
  criteriaWeights : CriteriaWeights
  proposals : List ProposalWithScores
  bestProposalId : Option String
deriving DecidableEq

/-- JS truthiness of a nullable string: `null`/absent and `""` are falsy,
every other string is truthy.  This is the test `rfp.currency ? … : …`
performs on line 70 of `src/routes/index.ts`. -/
def truthy : Option String → Bool
  | none => false
  | some s => s ≠ ""

/-- Minimum of a list of rationals (`none` on the empty list).  Inside the
code every use is guarded so the list is non-empty, matching
`Math.min(...xs)` there. -/
def listMin : List ℚ → Option ℚ
  | [] => none
  | x :: xs =>
    match listMin xs with
    | none => some x
    | some m => some (if x ≤ m then x else m)

/-- Maximum of a list of rationals (`none` on the empty list), matching the
guarded uses of `Math.max(...xs)`. -/
def listMax : List ℚ → Option ℚ
  | [] => none
  | x :: xs =>
    match listMax xs with
    | none => some x
    | some m => some (if m ≤ x then x else m)

/-- `effectiveProposals.map(p => p.totalPrice).filter(pr => pr !== null)`:
the non-null prices of the population. -/
def pricesOf (pop : List Proposal) : List ℚ :=
  pop.filterMap (fun p => p.totalPrice)

/-- The non-null delivery-day values of the population. -/
def deliveriesOf (pop : List Proposal) : List ℚ :=
  pop.filterMap (fun p => p.deliveryDays)

/-- The non-null warranty-month values of the population. -/
def warrantiesOf (pop : List Proposal) : List ℚ :=
  pop.filterMap (fun p => p.warrantyMonths)

/-- One lower-is-better sub-score block of the source (lines 95–102 for
price, 105–113 for delivery): `1/2` when the proposal's own value is null or
the population has no non-null value, `1` when the population max equals the
min, else `(max - v) / (max - min)`.  The source guards
`p.totalPrice != null && prices.length > 0` (resp.
`minX != null && maxX != null`) before using `Math.min(...)`/`Math.max(...)`;
since `vals.length > 0` iff `listMin vals` is `some _`, the guard is rendered
as the `Option` match. -/
def lowerBetterScore (v? : Option ℚ) (vals : List ℚ) : ℚ :=
  match v?, listMin vals, listMax vals with
  | some v, some mn, some mx => if mx = mn then 1 else (mx - v) / (mx - mn)
  | _, _, _ => 1/2

/-- The higher-is-better sub-score block of the source (warranty, lines
116–128): like `lowerBetterScore` but `(v - min) / (max - min)`. -/
def higherBetterScore (v? : Option ℚ) (vals : List ℚ) : ℚ :=
  match v?, listMin vals, listMax vals with
  | some v, some mn, some mx => if mx = mn then 1 else (v - mn) / (mx - mn)
  | _, _, _ => 1/2

/-- The body of `effectiveProposals.map(p => …)` in the source (lines
93–144): the three sub-scores and the weighted total for one proposal,
given the population's non-null value lists. -/
def scoreProposal (prices deliveries warranties : List ℚ) (p : Proposal) :
    ProposalWithScores :=
  let priceScore : ℚ := lowerBetterScore p.totalPrice prices
  let deliveryScore : ℚ := lowerBetterScore p.deliveryDays deliveries
  let warrantyScore : ℚ := higherBetterScore p.warrantyMonths warranties
  { proposal := p
    scores :=
      { priceScore := priceScore
        deliveryScore := deliveryScore
        warrantyScore := warrantyScore
        totalScore :=
          priceScore * (45/100) + deliveryScore * (35/100) +
            warrantyScore * (20/100) } }

/-- Line 70–72: `rfp.currency ? proposals.filter(p => p.currency === rfp.currency) : proposals`. -/
def filteredProposals (rfp : Rfp) (proposals : List Proposal) : List Proposal :=
  if truthy rfp.currency then
    proposals.filter (fun p => decide (p.currency = rfp.currency))
  else proposals

/-- Line 74: `filtered.length > 0 ? filtered : proposals`. -/
def effectiveProposals (rfp : Rfp) (proposals : List Proposal) : List Proposal :=
  if (filteredProposals rfp proposals).length > 0 then filteredProposals rfp proposals
  else proposals

/-- The scored (pre-sort) population: lines 76–144 of the source. -/
def scoredPopulation (rfp : Rfp) (proposals : List Proposal) :
    List ProposalWithScores :=
  (effectiveProposals rfp proposals).map
    (scoreProposal (pricesOf (effectiveProposals rfp proposals))
      (deliveriesOf (effectiveProposals rfp proposals))
      (warrantiesOf (effectiveProposals rfp proposals)))

/-- Insert into a descending-sorted list, keeping the existing element first
when scores tie.  Models one step of the stable sort
`scored.sort((a, b) => b.scores.totalScore - a.scores.totalScore)`:
an earlier element stays before a later one whenever the comparator
returns `0` or a negative value. -/
def insertDesc (x : ProposalWithScores) :
    List ProposalWithScores → List ProposalWithScores
  | [] => [x]
  | y :: ys =>
    if x.scores.totalScore < y.scores.totalScore then y :: insertDesc x ys
    else x :: y :: ys

/-- Stable descending insertion sort by `totalScore`, modelling line 146 of
the source (JS `Array.prototype.sort` is stable). -/
def sortDesc : List ProposalWithScores → List ProposalWithScores
  | [] => []
  | x :: xs => insertDesc x (sortDesc xs)

/-- The weights used when scoring occurs (lines 64–68). -/
def scoringWeights : CriteriaWeights :=
  { price := 45/100, delivery := 35/100, warranty := 20/100 }

/-- The display-default weights returned on empty input (line 58). -/
def defaultWeights : CriteriaWeights :=
  { price := 60/100, delivery := 25/100, warranty := 15/100 }

/-- Shallow embedding of `compareProposalsForRfp` (lines 49–156 of
`src/routes/index.ts`).  `proposals.length === 0` is rendered as
`proposals = []`; `scored[0]?.id ?? null` as `head?.map`. -/
def compareProposalsForRfp (rfp : Rfp) (proposals : List Proposal) :
    RfpComparisonResult :=
  if proposals = [] then
    { rfpId := rfp.id
      rfpTitle := rfp.title
      currency := rfp.currency
      criteriaWeights := defaultWeights
      proposals := []
      bestProposalId := none }
  else
    { rfpId := rfp.id
      rfpTitle := rfp.title
      currency := rfp.currency
      criteriaWeights := scoringWeights
      proposals := sortDesc (scoredPopulation rfp proposals)
      bestProposalId :=
        (sortDesc (scoredPopulation rfp proposals)).head?.map
          (fun sp => sp.proposal.id) }

/-! ## Basic properties of `listMin` and `listMax` -/

theorem listMin_eq_none {l : List ℚ} : listMin l = none ↔ l = [] := by
  cases l with
  | nil => simp [listMin]
  | cons a t =>
    simp only [listMin]
    cases listMin t <;> simp

theorem listMax_eq_none {l : List ℚ} : listMax l = none ↔ l = [] := by
  cases l with
  | nil => simp [listMax]
  | cons a t =>
    simp only [listMax]
    cases listMax t <;> simp

theorem listMin_le {l : List ℚ} {m x : ℚ} (hm : listMin l = some m)
    (hx : x ∈ l) : m ≤ x := by
  induction l generalizing m with
  | nil => cases hx
  | cons a t ih =>
    simp only [listMin] at hm
    cases ht : listMin t with
    | none =>
      rw [ht] at hm
      obtain rfl : a = m := by simpa using hm
      have : t = [] := listMin_eq_none.mp ht
      subst this
      have : x = a := by simpa using hx
      simp [this]
    | some mt =>
      rw [ht] at hm
      have hm' : (if a ≤ mt then a else mt) = m := by simpa using hm
      rcases List.mem_cons.mp hx with rfl | hxt
      · split at hm' <;> subst hm'
        · exact le_refl x
        · linarith [lt_of_not_le (by assumption)]
      · have hmt := ih ht hxt
        split at hm' <;> subst hm'
        · exact le_trans (by assumption) hmt
        · exact hmt

theorem le_listMax {l : List ℚ} {m x : ℚ} (hm : listMax l = some m)
    (hx : x ∈ l) : x ≤ m := by
  induction l generalizing m with
  | nil => cases hx
  | cons a t ih =>
    simp only [listMax] at hm
    cases ht : listMax t with
    | none =>
      rw [ht] at hm
      obtain rfl : a = m := by simpa using hm
      have : t = [] := listMax_eq_none.mp ht
      subst this
      have : x = a := by simpa using hx
      simp [this]
    | some mt =>
      rw [ht] at hm
      have hm' : (if mt ≤ a then a else mt) = m := by simpa using hm
      rcases List.mem_cons.mp hx with rfl | hxt
      · split at hm' <;> subst hm'
        · exact le_refl x
        · linarith [lt_of_not_le (by assumption)]
      · have hmt := ih ht hxt
        split at hm' <;> subst hm'
        · exact le_trans hmt (by assumption)
        · exact hmt

theorem listMin_mem {l : List ℚ} {m : ℚ} (hm : listMin l = some m) : m ∈ l := by
  induction l generalizing m with
  | nil => simp [listMin] at hm
  | cons a t ih =>
    simp only [listMin] at hm
    cases ht : listMin t with
    | none =>
      rw [ht] at hm
      simp only [Option.some.injEq] at hm
      simp [hm]
    | some mt =>
      rw [ht] at hm
      simp only [Option.some.injEq] at hm
      subst hm
      split
      · simp
      · exact List.mem_cons_of_mem a (ih ht)

theorem listMax_mem {l : List ℚ} {m : ℚ} (hm : listMax l = some m) : m ∈ l := by
  induction l generalizing m with
  | nil => simp [listMax] at hm
  | cons a t ih =>
    simp only [listMax] at hm
    cases ht : listMax t with
    | none =>
      rw [ht] at hm
      simp only [Option.some.injEq] at hm
      simp [hm]
    | some mt =>
      rw [ht] at hm
      simp only [Option.some.injEq] at hm
      subst hm
      split
      · simp
      · exact List.mem_cons_of_mem a (ih ht)

theorem listMin_le_listMax {l : List ℚ} {mn mx : ℚ}
    (h1 : listMin l = some mn) (h2 : listMax l = some mx) : mn ≤ mx :=
  le_listMax h2 (listMin_mem h1)

theorem listMin_isSome_of_mem {l : List ℚ} {x : ℚ} (hx : x ∈ l) :
    ∃ m, listMin l = some m := by
  cases h : listMin l with
  | none => exact absurd (listMin_eq_none.mp h ▸ hx) (List.not_mem_nil x)
  | some m => exact ⟨m, rfl⟩

theorem listMax_isSome_of_mem {l : List ℚ} {x : ℚ} (hx : x ∈ l) :
    ∃ m, listMax l = some m := by
  cases h : listMax l with
  | none => exact absurd (listMax_eq_none.mp h ▸ hx) (List.not_mem_nil x)
  | some m => exact ⟨m, rfl⟩

/-! ## Properties of the stable descending sort -/

theorem mem_insertDesc {x z : ProposalWithScores} {l : List ProposalWithScores} :
    z ∈ insertDesc x l ↔ z = x ∨ z ∈ l := by
  induction l with
  | nil => simp [insertDesc]
  | cons y ys ih =>
    simp only [insertDesc]
    split
    · simp only [List.mem_cons, ih]
      tauto
    · simp only [List.mem_cons]

theorem insertDesc_perm (x : ProposalWithScores) (l : List ProposalWithScores) :
    List.Perm (insertDesc x l) (x :: l) := by
  induction l with
  | nil => simp [insertDesc]
  | cons y ys ih =>
    simp only [insertDesc]
    split
    · exact (ih.cons y).trans (List.Perm.swap x y ys)
    · exact List.Perm.refl _

theorem sortDesc_perm (l : List ProposalWithScores) :
    List.Perm (sortDesc l) l := by
  induction l with
  | nil => simp [sortDesc]
  | cons x xs ih => exact (insertDesc_perm x (sortDesc xs)).trans (ih.cons x)

theorem insertDesc_pairwise {x : ProposalWithScores} {l : List ProposalWithScores}
    (hl : l.Pairwise (fun a b => b.scores.totalScore ≤ a.scores.totalScore)) :
    (insertDesc x l).Pairwise
      (fun a b => b.scores.totalScore ≤ a.scores.totalScore) := by
  induction l with
  | nil => simp [insertDesc]
  | cons y ys ih =>
    rw [List.pairwise_cons] at hl
    obtain ⟨hy, hys⟩ := hl
    simp only [insertDesc]
    split
    · rename_i hlt
      rw [List.pairwise_cons]
      refine ⟨fun z hz => ?_, ih hys⟩
      rcases mem_insertDesc.mp hz with rfl | hz'
      · exact le_of_lt hlt
      · exact hy z hz'
    · rename_i hnlt
      rw [List.pairwise_cons]
      refine ⟨fun z hz => ?_, List.pairwise_cons.mpr ⟨hy, hys⟩⟩
      rcases List.mem_cons.mp hz with rfl | hz'
      · exact le_of_not_lt hnlt
      · exact le_trans (hy z hz') (le_of_not_lt hnlt)

theorem sortDesc_pairwise (l : List ProposalWithScores) :
    (sortDesc l).Pairwise
      (fun a b => b.scores.totalScore ≤ a.scores.totalScore) := by
  induction l with
  | nil => simp [sortDesc]
  | cons x xs ih => exact insertDesc_pairwise ih

theorem filter_insertDesc (k : ℚ) (x : ProposalWithScores)
    (l : List ProposalWithScores) :
    (insertDesc x l).filter (fun sp => decide (sp.scores.totalScore = k)) =
      if x.scores.totalScore = k then
        x :: l.filter (fun sp => decide (sp.scores.totalScore = k))
      else l.filter (fun sp => decide (sp.scores.totalScore = k)) := by
  induction l with
  | nil =>
    by_cases hx : x.scores.totalScore = k <;> simp [insertDesc, hx]
  | cons y ys ih =>
    simp only [insertDesc]
    split
    · rename_i hlt
      by_cases hx : x.scores.totalScore = k
      · have hy : ¬ y.scores.totalScore = k := by
          intro h
          rw [hx] at hlt
          rw [h] at hlt
          exact lt_irrefl k hlt
        simp [List.filter_cons, hx, hy, ih]
      · by_cases hy : y.scores.totalScore = k <;>
          simp [List.filter_cons, hx, hy, ih]
    · by_cases hx : x.scores.totalScore = k <;>
        by_cases hy : y.scores.totalScore = k <;>
          simp [List.filter_cons, hx, hy]

theorem sortDesc_filter (k : ℚ) (l : List ProposalWithScores) :
    (sortDesc l).filter (fun sp => decide (sp.scores.totalScore = k)) =
      l.filter (fun sp => decide (sp.scores.totalScore = k)) := by
  induction l with
  | nil => rfl
  | cons x xs ih =>
    simp only [sortDesc, filter_insertDesc, ih, List.filter_cons]
    by_cases hx : x.scores.totalScore = k <;> simp [hx]

theorem sortDesc_eq_nil {l : List ProposalWithScores} :
    sortDesc l = [] ↔ l = [] := by
  constructor
  · intro h
    have := (sortDesc_perm l).symm
    rw [h] at this
    exact this.eq_nil
  · intro h
    subst h
    rfl

/-! ## Structure of the comparator -/

theorem filteredProposals_sublist (rfp : Rfp) (ps : List Proposal) :
    (filteredProposals rfp ps).Sublist ps := by
  unfold filteredProposals
  split
  · exact List.filter_sublist ps
  · exact List.Sublist.refl ps

theorem effectiveProposals_sublist (rfp : Rfp) (ps : List Proposal) :
    (effectiveProposals rfp ps).Sublist ps := by
  unfold effectiveProposals
  split
  · exact filteredProposals_sublist rfp ps
  · exact List.Sublist.refl ps

theorem effectiveProposals_nil (rfp : Rfp) : effectiveProposals rfp [] = [] :=
  List.sublist_nil.mp (effectiveProposals_sublist rfp [])

theorem effectiveProposals_ne_nil {rfp : Rfp} {ps : List Proposal}
    (h : ps ≠ []) : effectiveProposals rfp ps ≠ [] := by
  unfold effectiveProposals
  split
  · rename_i hl
    intro he
    rw [he] at hl
    simp at hl
  · exact h

theorem scoredPopulation_nil (rfp : Rfp) : scoredPopulation rfp [] = [] := by
  simp [scoredPopulation, effectiveProposals_nil]

theorem compare_proposals_eq {rfp : Rfp} {ps : List Proposal} (h : ps ≠ []) :
    (compareProposalsForRfp rfp ps).proposals =
      sortDesc (scoredPopulation rfp ps) := by
  simp [compareProposalsForRfp, h]

theorem compare_bestProposalId_eq {rfp : Rfp} {ps : List Proposal} :
    (compareProposalsForRfp rfp ps).bestProposalId =
      (compareProposalsForRfp rfp ps).proposals.head?.map
        (fun sp => sp.proposal.id) := by
  by_cases h : ps = []
  · subst h
    simp [compareProposalsForRfp]
  · simp [compareProposalsForRfp, h]

theorem mem_compare_proposals {rfp : Rfp} {ps : List Proposal}
    {sp : ProposalWithScores} :
    sp ∈ (compareProposalsForRfp rfp ps).proposals ↔
      sp ∈ scoredPopulation rfp ps := by
  by_cases h : ps = []
  · subst h
    simp [compareProposalsForRfp, scoredPopulation_nil]
  · rw [compare_proposals_eq h]
    exact (sortDesc_perm _).mem_iff

theorem mem_scoredPopulation {rfp : Rfp} {ps : List Proposal}
    {sp : ProposalWithScores} :
    sp ∈ scoredPopulation rfp ps ↔
      ∃ p ∈ effectiveProposals rfp ps,
        scoreProposal (pricesOf (effectiveProposals rfp ps))
          (deliveriesOf (effectiveProposals rfp ps))
          (warrantiesOf (effectiveProposals rfp ps)) p = sp := by
  simp [scoredPopulation, List.mem_map]

/-! ## Bounds on sub-scores -/

theorem lowerBetterScore_bounds {v? : Option ℚ} {vals : List ℚ}
    (hmem : ∀ v, v? = some v → v ∈ vals) :
    0 ≤ lowerBetterScore v? vals ∧ lowerBetterScore v? vals ≤ 1 := by
  cases hv : v? with
  | none => simp [lowerBetterScore]; norm_num
  | some v =>
    have hvm : v ∈ vals := hmem v hv
    obtain ⟨mn, hmn⟩ := listMin_isSome_of_mem hvm
    obtain ⟨mx, hmx⟩ := listMax_isSome_of_mem hvm
    have h1 : mn ≤ v := listMin_le hmn hvm
    have h2 : v ≤ mx := le_listMax hmx hvm
    simp only [lowerBetterScore, hmn, hmx]
    split
    · norm_num
    · rename_i hne
      have hlt : mn < mx := lt_of_le_of_ne (h1.trans h2) (Ne.symm hne)
      constructor
      · apply div_nonneg <;> linarith
      · rw [div_le_one (by linarith)]
        linarith

theorem higherBetterScore_bounds {v? : Option ℚ} {vals : List ℚ}
    (hmem : ∀ v, v? = some v → v ∈ vals) :
    0 ≤ higherBetterScore v? vals ∧ higherBetterScore v? vals ≤ 1 := by
  cases hv : v? with
  | none => simp [higherBetterScore]; norm_num
  | some v =>
    have hvm : v ∈ vals := hmem v hv
    obtain ⟨mn, hmn⟩ := listMin_isSome_of_mem hvm
    obtain ⟨mx, hmx⟩ := listMax_isSome_of_mem hvm
    have h1 : mn ≤ v := listMin_le hmn hvm
    have h2 : v ≤ mx := le_listMax hmx hvm
    simp only [higherBetterScore, hmn, hmx]
    split
    · norm_num
    · rename_i hne
      have hlt : mn < mx := lt_of_le_of_ne (h1.trans h2) (Ne.symm hne)
      constructor
      · apply div_nonneg <;> linarith
      · rw [div_le_one (by linarith)]
        linarith

theorem mem_pricesOf {pop : List Proposal} {p : Proposal} {v : ℚ}
    (hp : p ∈ pop) (hv : p.totalPrice = some v) : v ∈ pricesOf pop := by
  simp only [pricesOf, List.mem_filterMap]
  exact ⟨p, hp, hv⟩

theorem mem_deliveriesOf {pop : List Proposal} {p : Proposal} {v : ℚ}
    (hp : p ∈ pop) (hv : p.deliveryDays = some v) : v ∈ deliveriesOf pop := by
  simp only [deliveriesOf, List.mem_filterMap]
  exact ⟨p, hp, hv⟩

theorem mem_warrantiesOf {pop : List Proposal} {p : Proposal} {v : ℚ}
    (hp : p ∈ pop) (hv : p.warrantyMonths = some v) : v ∈ warrantiesOf pop := by
  simp only [warrantiesOf, List.mem_filterMap]
  exact ⟨p, hp, hv⟩

theorem compare_proposals_map_perm (rfp : Rfp) (ps : List Proposal) :
    List.Perm
      ((compareProposalsForRfp rfp ps).proposals.map (fun sp => sp.proposal))
      (effectiveProposals rfp ps) := by
  by_cases h : ps = []
  · subst h
    simp [compareProposalsForRfp, effectiveProposals_nil]
  · rw [compare_proposals_eq h]
    have h1 :
        List.Perm
          ((sortDesc (scoredPopulation rfp ps)).map (fun sp => sp.proposal))
          ((scoredPopulation rfp ps).map (fun sp => sp.proposal)) :=
      (sortDesc_perm _).map _
    have h2 : (scoredPopulation rfp ps).map (fun sp => sp.proposal) =
        effectiveProposals rfp ps := by
      rw [scoredPopulation, List.map_map]
      have hcomp :
          ((fun sp : ProposalWithScores => sp.proposal) ∘
            scoreProposal (pricesOf (effectiveProposals rfp ps))
              (deliveriesOf (effectiveProposals rfp ps))
              (warrantiesOf (effectiveProposals rfp ps))) = id := by
        funext p
        rfl
      rw [hcomp, List.map_id]
    rw [h2] at h1
    exact h1

/-! ## The spec's scoring formulas, transcribed from its words

The spec describes each sub-score in terms of the population minimum and
maximum over the non-null values of the scored population; these
definitions transcribe that text so the code's scores can be compared
against it (claims C1 and C7). -/

/-- Transcribed from the spec: the non-null prices of the scored
population. -/
def specNonNullPrices (pop : List Proposal) : List ℚ :=
  pop.filterMap (fun p => p.totalPrice)

/-- Transcribed from the spec: the non-null delivery-day values of the
scored population. -/
def specNonNullDeliveries (pop : List Proposal) : List ℚ :=
  pop.filterMap (fun p => p.deliveryDays)

/-- Transcribed from the spec: the non-null warranty-month values of the
scored population. -/
def specNonNullWarranties (pop : List Proposal) : List ℚ :=
  pop.filterMap (fun p => p.warrantyMonths)

/-- Transcribed from the spec: "Price (lower is better): for a proposal
with non-null price `p`, given population min `minP` and max `maxP` over
non-null prices: if `maxP == minP`, score = 1.0; else
`(maxP - p) / (maxP - minP)`.  If the proposal's price is null, OR if no
proposal in the population has a non-null price, score = 0.5." -/
def specPriceScore (pop : List Proposal) (p : Proposal) : ℚ :=
  match p.totalPrice, listMin (specNonNullPrices pop),
      listMax (specNonNullPrices pop) with
  | some v, some minP, some maxP =>
    if maxP = minP then 1 else (maxP - v) / (maxP - minP)
  | _, _, _ => 1/2

/-- Transcribed from the spec: delivery uses the identical lower-is-better
shape over `deliveryDays`, with the same null handling. -/
def specDeliveryScore (pop : List Proposal) (p : Proposal) : ℚ :=
  match p.deliveryDays, listMin (specNonNullDeliveries pop),
      listMax (specNonNullDeliveries pop) with
  | some v, some minD, some maxD =>
    if maxD = minD then 1 else (maxD - v) / (maxD - minD)
  | _, _, _ => 1/2

/-- Transcribed from the spec: "Warranty (higher is better, months): for
non-null warranty `w` with population min `minW`/max `maxW`: if
`maxW == minW`, score = 1.0; else `(w - minW) / (maxW - minW)`.  Null or
empty population → 0.5." -/
def specWarrantyScore (pop : List Proposal) (p : Proposal) : ℚ :=
  match p.warrantyMonths, listMin (specNonNullWarranties pop),
      listMax (specNonNullWarranties pop) with
  | some v, some minW, some maxW =>
    if maxW = minW then 1 else (v - minW) / (maxW - minW)
  | _, _, _ => 1/2

/-! ## Witness fixtures -/

/-- A fixture RFP with no currency set. -/
def wRfpNoCur : Rfp := ⟨"rfp-w", "Widgets", none⟩

/-- A fixture proposal with a price and a warranty but no delivery days. -/
def wProp : Proposal := ⟨"P1", some "USD", some 10, none, some 6⟩

/-- The scored form of `wProp` in the population `[wProp]`. -/
def wScored : ProposalWithScores :=
  scoreProposal (pricesOf (effectiveProposals wRfpNoCur [wProp]))
    (deliveriesOf (effectiveProposals wRfpNoCur [wProp]))
    (warrantiesOf (effectiveProposals wRfpNoCur [wProp])) wProp

theorem wScored_mem :
    wScored ∈ (compareProposalsForRfp wRfpNoCur [wProp]).proposals :=
  mem_compare_proposals.mpr (mem_scoredPopulation.mpr
    ⟨wProp, by simp [effectiveProposals, filteredProposals, truthy, wRfpNoCur],
      rfl⟩)

/-! ## The claims -/

/-- **C1.** Every proposal in the result carries the spec's lower-is-better
price score over the non-null prices of the scored population (1.0 when the
population max equals the min, `(maxP - p) / (maxP - minP)` otherwise, 0.5
for a null price or a population with no non-null price); delivery uses the
identical shape over `deliveryDays`; and a proposal that is the only one
with a non-null price scores 1.0, not 0.5. -/
theorem claim1_price_delivery_formula (rfp : Rfp) (ps : List Proposal)
    (sp : ProposalWithScores)
    (hsp : sp ∈ (compareProposalsForRfp rfp ps).proposals) :
    sp.scores.priceScore =
        specPriceScore (effectiveProposals rfp ps) sp.proposal ∧
    sp.scores.deliveryScore =
        specDeliveryScore (effectiveProposals rfp ps) sp.proposal ∧
    (∀ v, sp.proposal.totalPrice = some v →
      specNonNullPrices (effectiveProposals rfp ps) = [v] →
      sp.scores.priceScore = 1) := by
  obtain ⟨p, hp, hEq⟩ := mem_scoredPopulation.mp (mem_compare_proposals.mp hsp)
  subst hEq
  refine ⟨rfl, rfl, ?_⟩
  intro v hv hsingle
  have hv' : p.totalPrice = some v := hv
  have hprices : pricesOf (effectiveProposals rfp ps) = [v] := hsingle
  simp [scoreProposal, lowerBetterScore, hprices, hv', listMin, listMax]

/-- Witness for C1: a concrete population of one proposal. -/
theorem claim1_witness :
    wScored ∈ (compareProposalsForRfp wRfpNoCur [wProp]).proposals ∧
    (wScored.scores.priceScore =
        specPriceScore (effectiveProposals wRfpNoCur [wProp]) wScored.proposal ∧
      wScored.scores.deliveryScore =
        specDeliveryScore (effectiveProposals wRfpNoCur [wProp])
          wScored.proposal ∧
      (∀ v, wScored.proposal.totalPrice = some v →
        specNonNullPrices (effectiveProposals wRfpNoCur [wProp]) = [v] →
        wScored.scores.priceScore = 1)) :=
  ⟨wScored_mem,
    claim1_price_delivery_formula wRfpNoCur [wProp] wScored wScored_mem⟩

/-- **C6.** Every sub-score and the total score of every proposal in the
result lie in the closed interval [0, 1]. -/
theorem claim6_score_bounds (rfp : Rfp) (ps : List Proposal)
    (sp : ProposalWithScores)
    (hsp : sp ∈ (compareProposalsForRfp rfp ps).proposals) :
    (0 ≤ sp.scores.priceScore ∧ sp.scores.priceScore ≤ 1) ∧
    (0 ≤ sp.scores.deliveryScore ∧ sp.scores.deliveryScore ≤ 1) ∧
    (0 ≤ sp.scores.warrantyScore ∧ sp.scores.warrantyScore ≤ 1) ∧
    (0 ≤ sp.scores.totalScore ∧ sp.scores.totalScore ≤ 1) := by
  obtain ⟨p, hp, hEq⟩ := mem_scoredPopulation.mp (mem_compare_proposals.mp hsp)
  subst hEq
  have hP := @lowerBetterScore_bounds p.totalPrice
    (pricesOf (effectiveProposals rfp ps)) (fun v hv => mem_pricesOf hp hv)
  have hD := @lowerBetterScore_bounds p.deliveryDays
    (deliveriesOf (effectiveProposals rfp ps))
    (fun v hv => mem_deliveriesOf hp hv)
  have hW := @higherBetterScore_bounds p.warrantyMonths
    (warrantiesOf (effectiveProposals rfp ps))
    (fun v hv => mem_warrantiesOf hp hv)
  refine ⟨hP, hD, hW, ?_, ?_⟩
  · have := hP.1
    have := hD.1
    have := hW.1
    simp only [scoreProposal]
    linarith
  · have := hP.2
    have := hD.2
    have := hW.2
    simp only [scoreProposal]
    linarith

/-- Witness for C6. -/
theorem claim6_witness :
    wScored ∈ (compareProposalsForRfp wRfpNoCur [wProp]).proposals ∧
    ((0 ≤ wScored.scores.priceScore ∧ wScored.scores.priceScore ≤ 1) ∧
      (0 ≤ wScored.scores.deliveryScore ∧ wScored.scores.deliveryScore ≤ 1) ∧
      (0 ≤ wScored.scores.warrantyScore ∧ wScored.scores.warrantyScore ≤ 1) ∧
      (0 ≤ wScored.scores.totalScore ∧ wScored.scores.totalScore ≤ 1)) :=
  ⟨wScored_mem, claim6_score_bounds wRfpNoCur [wProp] wScored wScored_mem⟩

/-- **C7.** Every proposal in the result carries the spec's higher-is-better
warranty score: 1.0 when the population's max non-null warranty equals its
min, `(w - minW) / (maxW - minW)` otherwise, and 0.5 for a null warranty or
a population with no non-null warranty. -/
theorem claim7_warranty_formula (rfp : Rfp) (ps : List Proposal)
    (sp : ProposalWithScores)
    (hsp : sp ∈ (compareProposalsForRfp rfp ps).proposals) :
    sp.scores.warrantyScore =
      specWarrantyScore (effectiveProposals rfp ps) sp.proposal := by
  obtain ⟨p, hp, hEq⟩ := mem_scoredPopulation.mp (mem_compare_proposals.mp hsp)
  subst hEq
  rfl

/-- Witness for C7. -/
theorem claim7_witness :
    wScored ∈ (compareProposalsForRfp wRfpNoCur [wProp]).proposals ∧
    wScored.scores.warrantyScore =
      specWarrantyScore (effectiveProposals wRfpNoCur [wProp])
        wScored.proposal :=
  ⟨wScored_mem, claim7_warranty_formula wRfpNoCur [wProp] wScored wScored_mem⟩

/-- **C2.** With a set (truthy) RFP currency the scored population is the
case-sensitively matching proposals, falling back to the whole list when no
proposal matches, so it is non-empty whenever the input is; with no
currency, every proposal is scored. -/
theorem claim2_currency_filter (rfp : Rfp) (ps : List Proposal)
    (h : ps ≠ []) :
    (truthy rfp.currency = true →
      (ps.filter (fun p => decide (p.currency = rfp.currency)) ≠ [] →
        effectiveProposals rfp ps =
          ps.filter (fun p => decide (p.currency = rfp.currency))) ∧
      (ps.filter (fun p => decide (p.currency = rfp.currency)) = [] →
        effectiveProposals rfp ps = ps)) ∧
    (rfp.currency = none → effectiveProposals rfp ps = ps) ∧
    effectiveProposals rfp ps ≠ [] ∧
    List.Perm
      ((compareProposalsForRfp rfp ps).proposals.map (fun sp => sp.proposal))
      (effectiveProposals rfp ps) := by
  refine ⟨?_, ?_, effectiveProposals_ne_nil h, compare_proposals_map_perm rfp ps⟩
  · intro ht
    constructor
    · intro hne
      unfold effectiveProposals filteredProposals
      rw [if_pos ht, if_pos]
      exact List.length_pos.mpr hne
    · intro he
      unfold effectiveProposals filteredProposals
      rw [if_pos ht, he]
      simp
  · intro hn
    have ht : truthy rfp.currency = false := by rw [hn]; rfl
    unfold effectiveProposals filteredProposals
    rw [ht]
    simp

/-- Witness for C2. -/
theorem claim2_witness :
    ([wProp] : List Proposal) ≠ [] ∧
    ((truthy wRfpNoCur.currency = true →
      (([wProp].filter (fun p => decide (p.currency = wRfpNoCur.currency)) ≠ [] →
        effectiveProposals wRfpNoCur [wProp] =
          [wProp].filter (fun p => decide (p.currency = wRfpNoCur.currency))) ∧
      ([wProp].filter (fun p => decide (p.currency = wRfpNoCur.currency)) = [] →
        effectiveProposals wRfpNoCur [wProp] = [wProp]))) ∧
    (wRfpNoCur.currency = none → effectiveProposals wRfpNoCur [wProp] = [wProp]) ∧
    effectiveProposals wRfpNoCur [wProp] ≠ [] ∧
    List.Perm
      ((compareProposalsForRfp wRfpNoCur [wProp]).proposals.map
        (fun sp => sp.proposal))
      (effectiveProposals wRfpNoCur [wProp])) :=
  ⟨by simp, claim2_currency_filter wRfpNoCur [wProp] (by simp)⟩

/-- **C3.** Whenever scoring occurs, every total score is the weighted sum
with fixed weights 0.45/0.35/0.20, and `criteriaWeights` echoes exactly
that triple. -/
theorem claim3_scoring_weights (rfp : Rfp) (ps : List Proposal)
    (h : ps ≠ []) :
    (compareProposalsForRfp rfp ps).criteriaWeights =
      ⟨45/100, 35/100, 20/100⟩ ∧
    ∀ sp ∈ (compareProposalsForRfp rfp ps).proposals,
      sp.scores.totalScore =
        sp.scores.priceScore * (45/100) +
          sp.scores.deliveryScore * (35/100) +
          sp.scores.warrantyScore * (20/100) := by
  constructor
  · simp [compareProposalsForRfp, h, scoringWeights]
  · intro sp hsp
    obtain ⟨p, hp, hEq⟩ :=
      mem_scoredPopulation.mp (mem_compare_proposals.mp hsp)
    subst hEq
    rfl

/-- Witness for C3. -/
theorem claim3_witness :
    ([wProp] : List Proposal) ≠ [] ∧
    ((compareProposalsForRfp wRfpNoCur [wProp]).criteriaWeights =
      ⟨45/100, 35/100, 20/100⟩ ∧
    ∀ sp ∈ (compareProposalsForRfp wRfpNoCur [wProp]).proposals,
      sp.scores.totalScore =
        sp.scores.priceScore * (45/100) +
          sp.scores.deliveryScore * (35/100) +
          sp.scores.warrantyScore * (20/100)) :=
  ⟨by simp, claim3_scoring_weights wRfpNoCur [wProp] (by simp)⟩

/-- **C4.** The result list is the scored population stably sorted by total
score in descending order (ties keep their pre-sort relative order), and
`bestProposalId` is the first element's identifier after the sort, `none`
exactly when the result list is empty, which happens exactly when the input
list was empty. -/
theorem claim4_ranking (rfp : Rfp) (ps : List Proposal) :
    (compareProposalsForRfp rfp ps).proposals.Pairwise
      (fun a b => b.scores.totalScore ≤ a.scores.totalScore) ∧
    List.Perm (compareProposalsForRfp rfp ps).proposals
      (scoredPopulation rfp ps) ∧
    (∀ k : ℚ,
      (compareProposalsForRfp rfp ps).proposals.filter
          (fun sp => decide (sp.scores.totalScore = k)) =
        (scoredPopulation rfp ps).filter
          (fun sp => decide (sp.scores.totalScore = k))) ∧
    (compareProposalsForRfp rfp ps).bestProposalId =
      (compareProposalsForRfp rfp ps).proposals.head?.map
        (fun sp => sp.proposal.id) ∧
    ((compareProposalsForRfp rfp ps).bestProposalId = none ↔
      (compareProposalsForRfp rfp ps).proposals = []) ∧
    ((compareProposalsForRfp rfp ps).proposals = [] ↔ ps = []) := by
  by_cases h : ps = []
  · subst h
    refine ⟨?_, ?_, ?_, ?_, ?_, ?_⟩ <;>
      simp [compareProposalsForRfp, scoredPopulation_nil]
  · have hnil : sortDesc (scoredPopulation rfp ps) ≠ [] := by
      intro hh
      rw [sortDesc_eq_nil, scoredPopulation] at hh
      exact effectiveProposals_ne_nil h (List.map_eq_nil_iff.mp hh)
    refine ⟨?_, ?_, ?_, compare_bestProposalId_eq, ?_, ?_⟩
    · rw [compare_proposals_eq h]
      exact sortDesc_pairwise _
    · rw [compare_proposals_eq h]
      exact sortDesc_perm _
    · intro k
      rw [compare_proposals_eq h]
      exact sortDesc_filter k _
    · rw [compare_bestProposalId_eq, compare_proposals_eq h]
      cases hh : sortDesc (scoredPopulation rfp ps) with
      | nil => simp
      | cons a l => simp
    · rw [compare_proposals_eq h]
      simp only [h, iff_false]
      exact hnil

/-- **C5.** On an empty proposal list the comparator returns the empty
result with the display-default weight triple 0.60/0.25/0.15, which differs
from the scoring triple. -/
theorem claim5_empty_input (rfp : Rfp) :
    compareProposalsForRfp rfp [] =
      { rfpId := rfp.id
        rfpTitle := rfp.title
        currency := rfp.currency
        criteriaWeights := ⟨60/100, 25/100, 15/100⟩
        proposals := []
        bestProposalId := none } ∧
    (⟨60/100, 25/100, 15/100⟩ : CriteriaWeights) ≠ scoringWeights := by
  constructor
  · rfl
  · intro hEq
    have : (60 : ℚ)/100 = 45/100 := congrArg CriteriaWeights.price hEq
    norm_num at this

/-- **C8.** The output proposal list is a permutation of the scored
population (the currency-filtered subset or, under fallback, the whole
input), that population is a sublist of the input, and when the currency
gate is active and the filter kept something, every output proposal's
currency equals the RFP's. -/
theorem claim8_population_permutation (rfp : Rfp) (ps : List Proposal) :
    List.Perm
      ((compareProposalsForRfp rfp ps).proposals.map (fun sp => sp.proposal))
      (effectiveProposals rfp ps) ∧
    (effectiveProposals rfp ps).Sublist ps ∧
    (truthy rfp.currency = true →
      filteredProposals rfp ps ≠ [] →
      ∀ sp ∈ (compareProposalsForRfp rfp ps).proposals,
        sp.proposal.currency = rfp.currency) := by
  refine ⟨compare_proposals_map_perm rfp ps,
    effectiveProposals_sublist rfp ps, ?_⟩
  intro ht hf sp hsp
  obtain ⟨p, hp, hEq⟩ := mem_scoredPopulation.mp (mem_compare_proposals.mp hsp)
  subst hEq
  have heff : effectiveProposals rfp ps = filteredProposals rfp ps := by
    unfold effectiveProposals
    rw [if_pos (List.length_pos.mpr hf)]
  rw [heff, filteredProposals, if_pos ht] at hp
  have := List.mem_filter.mp hp
  simpa using this.2

/-- Witness for C8 (its hypotheses are all inside the conjunction; the
theorem is applied at a concrete input and the inner hypotheses are
discharged there). -/
theorem claim8_witness :
    List.Perm
      ((compareProposalsForRfp wRfpNoCur [wProp]).proposals.map
        (fun sp => sp.proposal))
      (effectiveProposals wRfpNoCur [wProp]) ∧
    (effectiveProposals wRfpNoCur [wProp]).Sublist [wProp] ∧
    (truthy wRfpNoCur.currency = true →
      filteredProposals wRfpNoCur [wProp] ≠ [] →
      ∀ sp ∈ (compareProposalsForRfp wRfpNoCur [wProp]).proposals,
        sp.proposal.currency = wRfpNoCur.currency) :=
  claim8_population_permutation wRfpNoCur [wProp]

/-- The RFP of the spec's Scenario A. -/
def scnRfp : Rfp := ⟨"rfp-A", "Laptops", some "USD"⟩

/-- Scenario A, proposal priced 100 USD. -/
def scnP1 : Proposal := ⟨"P1", some "USD", some 100, none, none⟩

/-- Scenario A, proposal priced 200 USD. -/
def scnP2 : Proposal := ⟨"P2", some "USD", some 200, none, none⟩

/-- Scenario A, proposal priced 50 EUR. -/
def scnP3 : Proposal := ⟨"P3", some "EUR", some 50, none, none⟩

/-- **C9.** Scenario A: with RFP currency USD and proposals priced
100 USD, 200 USD and 50 EUR (null delivery/warranty), the EUR proposal is
excluded, the 100-priced proposal scores priceScore 1 and totalScore
0.725, the 200-priced one scores 0 and 0.275, and the best proposal is the
100-priced one. -/
theorem claim9_scenarioA :
    ((compareProposalsForRfp scnRfp [scnP1, scnP2, scnP3]).proposals.map
        (fun sp => sp.proposal.id)) = ["P1", "P2"] ∧
    ((compareProposalsForRfp scnRfp [scnP1, scnP2, scnP3]).proposals.map
        (fun sp => (sp.scores.priceScore, sp.scores.totalScore))) =
      [(1, 725/1000), (0, 275/1000)] ∧
    (compareProposalsForRfp scnRfp [scnP1, scnP2, scnP3]).bestProposalId =
      some "P1" := by
  refine ⟨?_, ?_, ?_⟩ <;>
    · simp [compareProposalsForRfp, scoredPopulation, effectiveProposals,
        filteredProposals, truthy, pricesOf, deliveriesOf, warrantiesOf,
        scoreProposal, lowerBetterScore, higherBetterScore, listMin, listMax,
        sortDesc, insertDesc, scnRfp, scnP1, scnP2, scnP3]
      norm_num

/-- **C10.** The currency gate is a JS truthiness test: an RFP whose
currency is the empty string behaves, for scoring, exactly like one with no
currency — no filtering occurs and every proposal is scored. -/
theorem claim10_empty_string_currency (i t : String) (ps : List Proposal)
    (h : ps ≠ []) :
    effectiveProposals ⟨i, t, some ""⟩ ps = ps ∧
    (compareProposalsForRfp ⟨i, t, some ""⟩ ps).proposals =
      (compareProposalsForRfp ⟨i, t, none⟩ ps).proposals ∧
    (compareProposalsForRfp ⟨i, t, some ""⟩ ps).bestProposalId =
      (compareProposalsForRfp ⟨i, t, none⟩ ps).bestProposalId := by
  have he : effectiveProposals ⟨i, t, some ""⟩ ps = ps := by
    unfold effectiveProposals filteredProposals
    simp [truthy]
  have he' : effectiveProposals ⟨i, t, none⟩ ps = ps := by
    unfold effectiveProposals filteredProposals
    simp [truthy]
  have hs : scoredPopulation ⟨i, t, some ""⟩ ps =
      scoredPopulation ⟨i, t, none⟩ ps := by
    rw [scoredPopulation, scoredPopulation, he, he']
  refine ⟨he, ?_, ?_⟩ <;> simp [compareProposalsForRfp, h, hs]

/-- Witness for C10. -/
theorem claim10_witness :
    ([wProp] : List Proposal) ≠ [] ∧
    (effectiveProposals ⟨"r", "t", some ""⟩ [wProp] = [wProp] ∧
    (compareProposalsForRfp ⟨"r", "t", some ""⟩ [wProp]).proposals =
      (compareProposalsForRfp ⟨"r", "t", none⟩ [wProp]).proposals ∧
    (compareProposalsForRfp ⟨"r", "t", some ""⟩ [wProp]).bestProposalId =
      (compareProposalsForRfp ⟨"r", "t", none⟩ [wProp]).bestProposalId) :=
  ⟨by simp, claim10_empty_string_currency "r" "t" [wProp] (by simp)⟩
